import Mathlib

/-!
Verification of the `nelder_mead_optimizer` repository against its
natural-language specification.

The repository's only source file, `src/examples/nelder_mead_rs.py`, defines
the Styblinski-Tang objective function and invokes `nelder_mead` (imported
from the package, whose implementation is not in the provided sources) on it.
Real numbers of the Python code are modelled by `ℚ` so that every definition
is executable.  The optimizer itself is modelled from the specification
(§4.1), since its code is not under `src/`.
-/

namespace NelderMead

/-- From `src/examples/nelder_mead_rs.py`, lines 5-6:
`def styblinski_tang_function(x): return 0.5 * sum([xi**4 - 16*xi**2 + 5*xi for xi in x])`. -/
def styblinski_tang_function (x : List ℚ) : ℚ :=
  0.5 * (x.map (fun xi => xi ^ 4 - 16 * xi ^ 2 + 5 * xi)).sum

/-- From `src/examples/nelder_mead_rs.py`, lines 8-10: the tuple of the ten
arguments passed to `nelder_mead`, in source order:
`nelder_mead(styblinski_tang_function, [0., 0.], 0.1, 10e-6, 10, 100, 1.0, 2.0, -0.5, 0.5)`. -/
def example_args :
    (List ℚ → ℚ) × List ℚ × ℚ × ℚ × Nat × Nat × ℚ × ℚ × ℚ × ℚ :=
  (styblinski_tang_function, [0, 0], 0.1, 10e-6, 10, 100, 1.0, 2.0, -0.5, 0.5)

/-- Modelled from the spec: a Vertex is a (Point, score) pair (§3), with a
Point modelled as a list of rationals. -/
structure Vertex where
  point : List ℚ
  score : ℚ
deriving DecidableEq

/-- Coordinate-wise addition of two points. -/
def addP (p q : List ℚ) : List ℚ := List.zipWith (· + ·) p q

/-- Coordinate-wise subtraction of two points. -/
def subP (p q : List ℚ) : List ℚ := List.zipWith (· - ·) p q

/-- Scalar multiple of a point. -/
def smulP (c : ℚ) (p : List ℚ) : List ℚ := p.map (fun x => c * x)

/-- Coordinate-wise sum of a nonempty list of points (empty list gives `[]`). -/
def sumPoints : List (List ℚ) → List ℚ
  | [] => []
  | p :: ps => ps.foldl addP p

/-- Modelled from the spec: the centroid is the coordinate-wise mean of a set
of points (glossary; §4.1 step 2). -/
def centroid (ps : List (List ℚ)) : List ℚ :=
  smulP (1 / (ps.length : ℚ)) (sumPoints ps)

/-- Evaluation of the objective at a point, packaged as a Vertex. -/
def mkVertex (f : List ℚ → ℚ) (p : List ℚ) : Vertex := ⟨p, f p⟩

/-- Modelled from the spec: perturb coordinate `i` of `x0` by `h` (§4.1,
`step_size`: "perturbing each coordinate of the initial point by this amount,
one dimension at a time"). -/
def perturb (x0 : List ℚ) (i : Nat) (h : ℚ) : List ℚ :=
  x0.mapIdx (fun j xj => if j = i then xj + h else xj)

/-- Modelled from the spec: the initial simplex has the initial point plus `N`
perturbed points, `N+1` vertices in total (§4.1). -/
def initialSimplex (f : List ℚ → ℚ) (x0 : List ℚ) (h : ℚ) : List Vertex :=
  mkVertex f x0 :: (List.range x0.length).map (fun i => mkVertex f (perturb x0 i h))

/-- Insertion of a vertex into a list sorted ascending by score. -/
def insertVertex (v : Vertex) : List Vertex → List Vertex
  | [] => [v]
  | w :: ws => if v.score ≤ w.score then v :: w :: ws else w :: insertVertex v ws

/-- Modelled from the spec: sorting the simplex ascending by score (§4.1
step 1), by insertion sort. -/
def sortByScore : List Vertex → List Vertex
  | [] => []
  | v :: vs => insertVertex v (sortByScore vs)

/-- Least score among the vertices of a simplex (`0` for the empty list). -/
def minScoreD : List Vertex → ℚ
  | [] => 0
  | v :: vs => vs.foldl (fun m w => min m w.score) v.score

/-- Greatest score among the vertices of a simplex (`0` for the empty list). -/
def maxScoreD : List Vertex → ℚ
  | [] => 0
  | v :: vs => vs.foldl (fun m w => max m w.score) v.score

/-- Modelled from the spec: the score spread is max score minus min score
(§4.1, `tolerance`). -/
def scoreSpread (s : List Vertex) : ℚ := maxScoreD s - minScoreD s

/-- Modelled from the spec: `reflected = centroid + reflect_coeff × (centroid
− worst.point)` (§4.1 step 3). -/
def reflectPt (α : ℚ) (c wp : List ℚ) : List ℚ := addP c (smulP α (subP c wp))

/-- Modelled from the spec: `expanded = centroid + expand_coeff ×
(reflected.point − centroid)` (§4.1 step 4). -/
def expandPt (γ : ℚ) (c rp : List ℚ) : List ℚ := addP c (smulP γ (subP rp c))

/-- Modelled from the spec: `contracted = centroid + contract_coeff ×
(worst.point − centroid)` (§4.1 step 4). -/
def contractPt (ρ : ℚ) (c wp : List ℚ) : List ℚ := addP c (smulP ρ (subP wp c))

/-- Modelled from the spec: a shrunk vertex position `best.point +
shrink_coeff × (vertex.point − best.point)` (§4.1 step 4). -/
def shrinkPt (σ : ℚ) (bp vp : List ℚ) : List ℚ := addP bp (smulP σ (subP vp bp))

/-- Modelled from the spec: the §4.1 step 2-4 decision tree, applied to a
sorted simplex `best :: r :: rs` (best first, worst last).  The centroid is
taken over every vertex except the worst; the worst vertex is replaced by the
reflected, expanded or contracted vertex, or every vertex except the best is
shrunk toward the best. -/
def nmUpdate (f : List ℚ → ℚ) (α γ ρ σ : ℚ) (best r : Vertex) (rs : List Vertex) :
    List Vertex :=
  let worst := (r :: rs).getLast (List.cons_ne_nil r rs)
  let body := (best :: r :: rs).dropLast
  let c := centroid (body.map Vertex.point)
  let reflV := mkVertex f (reflectPt α c worst.point)
  if reflV.score < best.score then
    let expV := mkVertex f (expandPt γ c reflV.point)
    (if expV.score < reflV.score then expV else reflV) :: body
  else if reflV.score < (body.getLastD best).score then
    reflV :: body
  else
    let conV := mkVertex f (contractPt ρ c worst.point)
    if conV.score < worst.score then conV :: body
    else best :: (r :: rs).map (fun v => mkVertex f (shrinkPt σ best.point v.point))

/-- Modelled from the spec: one Nelder-Mead iteration, §4.1 steps 1-4.  Sort
the simplex ascending by score, then apply the decision tree.  A simplex with
fewer than two vertices (possible only for invalid input) is left unchanged. -/
def nmStep (f : List ℚ → ℚ) (α γ ρ σ : ℚ) (s : List Vertex) : List Vertex :=
  match sortByScore s with
  | [] => []
  | [v] => [v]
  | best :: r :: rs => nmUpdate f α γ ρ σ best r rs

/-- Modelled from the spec: the main loop, §4.1 steps 5-6.  Each round runs
one `nmStep`, updates the stagnation counter (reset when the best score
improved by more than `tol`, incremented otherwise), and stops when the score
spread falls below `tol`, the stagnation counter reaches `maxStag`, or the
iteration count reaches the fuel (`max_total_iters`).  Returns the final
simplex together with the number of iterations performed. -/
def nmLoop (f : List ℚ → ℚ) (α γ ρ σ tol : ℚ) (maxStag : Nat) :
    Nat → List Vertex → ℚ → Nat → List Vertex × Nat
  | 0, s, _, _ => (s, 0)
  | Nat.succ fuel, s, bestPrev, stag =>
      let s' := nmStep f α γ ρ σ s
      let newBest := minScoreD s'
      let stag' := if tol < bestPrev - newBest then 0 else stag + 1
      if scoreSpread s' < tol ∨ maxStag ≤ stag' then (s', 1)
      else
        let r := nmLoop f α γ ρ σ tol maxStag fuel s' newBest stag'
        (r.1, r.2 + 1)

/-- Modelled from the spec: the §4.1 contract
`optimize(objective, initial_point, step_size, tolerance, max_stagnant_iters,
max_total_iters, reflect_coeff, expand_coeff, contract_coeff, shrink_coeff)`,
returning the Point of the best-scoring vertex at termination. -/
def nelder_mead (f : List ℚ → ℚ) (x0 : List ℚ) (stepSize tol : ℚ)
    (maxStag maxTotal : Nat) (α γ ρ σ : ℚ) : List ℚ :=
  let s0 := initialSimplex f x0 stepSize
  ((sortByScore (nmLoop f α γ ρ σ tol maxStag maxTotal s0 (minScoreD s0) 0).1).headD
    (mkVertex f x0)).point

/-- Number of iterations performed by `nelder_mead` on the given input. -/
def nelder_mead_iters (f : List ℚ → ℚ) (x0 : List ℚ) (stepSize tol : ℚ)
    (maxStag maxTotal : Nat) (α γ ρ σ : ℚ) : Nat :=
  let s0 := initialSimplex f x0 stepSize
  (nmLoop f α γ ρ σ tol maxStag maxTotal s0 (minScoreD s0) 0).2

/-- Evaluation of a fallible objective at a point: a raised error propagates,
a returned value is packaged as a Vertex. -/
def evalVertexE {ε : Type} (f : List ℚ → Except ε ℚ) (p : List ℚ) : Except ε Vertex :=
  (f p).map (fun y => ⟨p, y⟩)

/-- Modelled from the spec: `initialSimplex` for a fallible objective; every
evaluation is sequenced, so an error from the objective propagates. -/
def initialSimplexE {ε : Type} (f : List ℚ → Except ε ℚ) (x0 : List ℚ) (h : ℚ) :
    Except ε (List Vertex) := do
  let v0 ← evalVertexE f x0
  let rest ← (List.range x0.length).mapM (fun i => evalVertexE f (perturb x0 i h))
  pure (v0 :: rest)

/-- Modelled from the spec: `nmUpdate` for a fallible objective (§7,
ObjectiveError: "propagate to caller unmodified, no retry"). -/
def nmUpdateE {ε : Type} (f : List ℚ → Except ε ℚ) (α γ ρ σ : ℚ)
    (best r : Vertex) (rs : List Vertex) : Except ε (List Vertex) := do
  let worst := (r :: rs).getLast (List.cons_ne_nil r rs)
  let body := (best :: r :: rs).dropLast
  let c := centroid (body.map Vertex.point)
  let reflV ← evalVertexE f (reflectPt α c worst.point)
  if reflV.score < best.score then do
    let expV ← evalVertexE f (expandPt γ c reflV.point)
    pure ((if expV.score < reflV.score then expV else reflV) :: body)
  else if reflV.score < (body.getLastD best).score then
    pure (reflV :: body)
  else do
    let conV ← evalVertexE f (contractPt ρ c worst.point)
    if conV.score < worst.score then
      pure (conV :: body)
    else do
      let shrunk ← (r :: rs).mapM (fun v => evalVertexE f (shrinkPt σ best.point v.point))
      pure (best :: shrunk)

/-- Modelled from the spec: `nmStep` for a fallible objective. -/
def nmStepE {ε : Type} (f : List ℚ → Except ε ℚ) (α γ ρ σ : ℚ) (s : List Vertex) :
    Except ε (List Vertex) :=
  match sortByScore s with
  | [] => pure []
  | [v] => pure [v]
  | best :: r :: rs => nmUpdateE f α γ ρ σ best r rs

/-- Modelled from the spec: `nmLoop` for a fallible objective. -/
def nmLoopE {ε : Type} (f : List ℚ → Except ε ℚ) (α γ ρ σ tol : ℚ) (maxStag : Nat) :
    Nat → List Vertex → ℚ → Nat → Except ε (List Vertex × Nat)
  | 0, s, _, _ => pure (s, 0)
  | Nat.succ fuel, s, bestPrev, stag => do
      let s' ← nmStepE f α γ ρ σ s
      let newBest := minScoreD s'
      let stag' := if tol < bestPrev - newBest then 0 else stag + 1
      if scoreSpread s' < tol ∨ maxStag ≤ stag' then pure (s', 1)
      else do
        let r ← nmLoopE f α γ ρ σ tol maxStag fuel s' newBest stag'
        pure (r.1, r.2 + 1)

/-- Modelled from the spec: `nelder_mead` for a fallible objective.  Every
objective evaluation is sequenced through `Except`, so a raised error
propagates to the caller immediately and unmodified (§7, ObjectiveError). -/
def nelder_meadE {ε : Type} (f : List ℚ → Except ε ℚ) (x0 : List ℚ) (stepSize tol : ℚ)
    (maxStag maxTotal : Nat) (α γ ρ σ : ℚ) : Except ε (List ℚ) := do
  let s0 ← initialSimplexE f x0 stepSize
  let r ← nmLoopE f α γ ρ σ tol maxStag maxTotal s0 (minScoreD s0) 0
  pure (((sortByScore r.1).headD ⟨x0, 0⟩).point)

/-- Sequencing for trace-instrumented computations: a pair of the list of
points passed to the objective so far (in evaluation order) and the `Except`
outcome.  An error stops the computation, so nothing after the failing
evaluation is recorded or run. -/
def tbind {ε A B : Type} (m : List (List ℚ) × Except ε A)
    (k : A → List (List ℚ) × Except ε B) : List (List ℚ) × Except ε B :=
  match m with
  | (t, Except.error e) => (t, Except.error e)
  | (t, Except.ok a) => (t ++ (k a).1, (k a).2)

/-- Trace-instrumented objective evaluation: records the evaluated point. -/
def evalVertexT {ε : Type} (f : List ℚ → Except ε ℚ) (p : List ℚ) :
    List (List ℚ) × Except ε Vertex :=
  ([p], (f p).map (fun y => ⟨p, y⟩))

/-- Trace-instrumented effectful map over a list. -/
def tmapM {ε A : Type} (g : A → List (List ℚ) × Except ε Vertex) :
    List A → List (List ℚ) × Except ε (List Vertex)
  | [] => ([], Except.ok [])
  | a :: t => tbind (g a) (fun b =>
      tbind (tmapM g t) (fun bs => ([], Except.ok (b :: bs))))

/-- Trace-instrumented `initialSimplexE`. -/
def initialSimplexT {ε : Type} (f : List ℚ → Except ε ℚ) (x0 : List ℚ) (h : ℚ) :
    List (List ℚ) × Except ε (List Vertex) :=
  tbind (evalVertexT f x0) (fun v0 =>
    tbind (tmapM (fun i => evalVertexT f (perturb x0 i h)) (List.range x0.length))
      (fun rest => ([], Except.ok (v0 :: rest))))

/-- Trace-instrumented `nmUpdateE`. -/
def nmUpdateT {ε : Type} (f : List ℚ → Except ε ℚ) (α γ ρ σ : ℚ)
    (best r : Vertex) (rs : List Vertex) : List (List ℚ) × Except ε (List Vertex) :=
  let worst := (r :: rs).getLast (List.cons_ne_nil r rs)
  let body := (best :: r :: rs).dropLast
  let c := centroid (body.map Vertex.point)
  tbind (evalVertexT f (reflectPt α c worst.point)) (fun reflV =>
    if reflV.score < best.score then
      tbind (evalVertexT f (expandPt γ c reflV.point)) (fun expV =>
        ([], Except.ok ((if expV.score < reflV.score then expV else reflV) :: body)))
    else if reflV.score < (body.getLastD best).score then
      ([], Except.ok (reflV :: body))
    else
      tbind (evalVertexT f (contractPt ρ c worst.point)) (fun conV =>
        if conV.score < worst.score then ([], Except.ok (conV :: body))
        else
          tbind (tmapM (fun v => evalVertexT f (shrinkPt σ best.point v.point)) (r :: rs))
            (fun shrunk => ([], Except.ok (best :: shrunk)))))

/-- Trace-instrumented `nmStepE`. -/
def nmStepT {ε : Type} (f : List ℚ → Except ε ℚ) (α γ ρ σ : ℚ) (s : List Vertex) :
    List (List ℚ) × Except ε (List Vertex) :=
  match sortByScore s with
  | [] => ([], Except.ok [])
  | [v] => ([], Except.ok [v])
  | best :: r :: rs => nmUpdateT f α γ ρ σ best r rs

/-- Trace-instrumented `nmLoopE`. -/
def nmLoopT {ε : Type} (f : List ℚ → Except ε ℚ) (α γ ρ σ tol : ℚ) (maxStag : Nat) :
    Nat → List Vertex → ℚ → Nat → List (List ℚ) × Except ε (List Vertex × Nat)
  | 0, s, _, _ => ([], Except.ok (s, 0))
  | Nat.succ fuel, s, bestPrev, stag =>
      tbind (nmStepT f α γ ρ σ s) (fun s' =>
        let newBest := minScoreD s'
        let stag' := if tol < bestPrev - newBest then 0 else stag + 1
        if scoreSpread s' < tol ∨ maxStag ≤ stag' then ([], Except.ok (s', 1))
        else
          tbind (nmLoopT f α γ ρ σ tol maxStag fuel s' newBest stag') (fun r =>
            ([], Except.ok (r.1, r.2 + 1))))

/-- Trace-instrumented `nelder_meadE`: the same optimizer, also returning the
list of every point passed to the objective, in evaluation order.  The first
component is the run's evaluated points; the second is the run's outcome. -/
def nelder_meadT {ε : Type} (f : List ℚ → Except ε ℚ) (x0 : List ℚ)
    (stepSize tol : ℚ) (maxStag maxTotal : Nat) (α γ ρ σ : ℚ) :
    List (List ℚ) × Except ε (List ℚ) :=
  tbind (initialSimplexT f x0 stepSize) (fun s0 =>
    tbind (nmLoopT f α γ ρ σ tol maxStag maxTotal s0 (minScoreD s0) 0) (fun r =>
      ([], Except.ok (((sortByScore r.1).headD ⟨x0, 0⟩).point))))

/-- A trace-instrumented computation is faithful to the objective `f` when:
every recorded point except possibly the last evaluated successfully (an
error ends evaluation immediately — no retry, no later evaluation); an error
outcome is exactly the error `f` raised at the last recorded point
(unmodified, no substituted default); and an ok outcome means every recorded
evaluation succeeded (no swallowed error). -/
def FaithfulRun {ε A : Type} (f : List ℚ → Except ε ℚ)
    (m : List (List ℚ) × Except ε A) : Prop :=
  (∀ p ∈ m.1.dropLast, ∃ y, f p = Except.ok y) ∧
  (∀ e, m.2 = Except.error e →
    ∃ p, m.1.getLast? = some p ∧ f p = Except.error e) ∧
  (∀ a, m.2 = Except.ok a → ∀ p ∈ m.1, ∃ y, f p = Except.ok y)

end NelderMead

open NelderMead

namespace NelderMead

/-! Permutation and membership facts about the insertion sort. -/

lemma mem_insertVertex {v w : Vertex} {l : List Vertex} :
    w ∈ insertVertex v l ↔ w = v ∨ w ∈ l := by
  induction l with
  | nil => simp [insertVertex]
  | cons a t ih =>
      by_cases h : v.score ≤ a.score
      · simp [insertVertex, h]
      · simp only [insertVertex, if_neg h, List.mem_cons, ih]
        tauto

lemma insertVertex_perm (v : Vertex) (l : List Vertex) :
    (insertVertex v l).Perm (v :: l) := by
  induction l with
  | nil => simp [insertVertex]
  | cons a t ih =>
      by_cases h : v.score ≤ a.score
      · simp [insertVertex, h]
      · simp only [insertVertex, if_neg h]
        exact (ih.cons a).trans (List.Perm.swap v a t)

lemma sortByScore_perm (s : List Vertex) : (sortByScore s).Perm s := by
  induction s with
  | nil => simp [sortByScore]
  | cons a t ih =>
      exact (insertVertex_perm a (sortByScore t)).trans (ih.cons a)

lemma mem_sortByScore {v : Vertex} {s : List Vertex} :
    v ∈ sortByScore s ↔ v ∈ s :=
  (sortByScore_perm s).mem_iff

lemma sortByScore_length (s : List Vertex) :
    (sortByScore s).length = s.length :=
  (sortByScore_perm s).length_eq

lemma pairwise_insertVertex {v : Vertex} {l : List Vertex}
    (h : l.Pairwise (fun a b => a.score ≤ b.score)) :
    (insertVertex v l).Pairwise (fun a b => a.score ≤ b.score) := by
  induction l with
  | nil => simp [insertVertex]
  | cons a t ih =>
      rcases List.pairwise_cons.mp h with ⟨ha, ht⟩
      by_cases hv : v.score ≤ a.score
      · simp only [insertVertex, if_pos hv]
        refine List.pairwise_cons.mpr ⟨?_, h⟩
        intro b hb
        rcases List.mem_cons.mp hb with rfl | hb
        · exact hv
        · exact hv.trans (ha b hb)
      · simp only [insertVertex, if_neg hv]
        refine List.pairwise_cons.mpr ⟨?_, ih ht⟩
        intro b hb
        rcases mem_insertVertex.mp hb with rfl | hb
        · exact le_of_not_le hv
        · exact ha b hb

lemma sortByScore_pairwise (s : List Vertex) :
    (sortByScore s).Pairwise (fun a b => a.score ≤ b.score) := by
  induction s with
  | nil => simp [sortByScore]
  | cons a t ih => exact pairwise_insertVertex ih

/-! Facts about the least score of a simplex. -/

lemma foldl_min_le_init (l : List Vertex) (a : ℚ) :
    l.foldl (fun m w => min m w.score) a ≤ a := by
  induction l generalizing a with
  | nil => exact le_refl a
  | cons w t ih => exact (ih (min a w.score)).trans (min_le_left _ _)

lemma foldl_min_le_of_mem {l : List Vertex} {w : Vertex} (hw : w ∈ l) (a : ℚ) :
    l.foldl (fun m w => min m w.score) a ≤ w.score := by
  induction l generalizing a with
  | nil => cases hw
  | cons u t ih =>
      rcases List.mem_cons.mp hw with rfl | hw
      · exact (foldl_min_le_init t _).trans (min_le_right _ _)
      · exact ih hw _

lemma le_foldl_min {l : List Vertex} {c : ℚ} {a : ℚ} (hc : c ≤ a)
    (h : ∀ w ∈ l, c ≤ w.score) :
    c ≤ l.foldl (fun m w => min m w.score) a := by
  induction l generalizing a with
  | nil => exact hc
  | cons u t ih =>
      exact ih (le_min hc (h u (List.mem_cons_self u t)))
        (fun w hw => h w (List.mem_cons_of_mem u hw))

lemma foldl_min_eq_init_or_mem (l : List Vertex) (a : ℚ) :
    l.foldl (fun m w => min m w.score) a = a ∨
      ∃ w ∈ l, l.foldl (fun m w => min m w.score) a = w.score := by
  induction l generalizing a with
  | nil => exact Or.inl rfl
  | cons u t ih =>
      rcases ih (min a u.score) with h | ⟨w, hw, he⟩
      · rcases le_total a u.score with hle | hle
        · exact Or.inl (by rw [List.foldl_cons, h, min_eq_left hle])
        · exact Or.inr ⟨u, List.mem_cons_self u t,
            by rw [List.foldl_cons, h, min_eq_right hle]⟩
      · exact Or.inr ⟨w, List.mem_cons_of_mem u hw, he⟩

lemma minScoreD_le_of_mem {s : List Vertex} {v : Vertex} (hv : v ∈ s) :
    minScoreD s ≤ v.score := by
  cases s with
  | nil => cases hv
  | cons a t =>
      rcases List.mem_cons.mp hv with rfl | hv
      · exact foldl_min_le_init t _
      · exact foldl_min_le_of_mem hv _

lemma le_minScoreD {s : List Vertex} {c : ℚ} (hs : s ≠ [])
    (h : ∀ v ∈ s, c ≤ v.score) : c ≤ minScoreD s := by
  cases s with
  | nil => exact absurd rfl hs
  | cons a t =>
      exact le_foldl_min (h a (List.mem_cons_self a t))
        (fun w hw => h w (List.mem_cons_of_mem a hw))

lemma minScoreD_mem {s : List Vertex} (hs : s ≠ []) :
    ∃ v ∈ s, minScoreD s = v.score := by
  cases s with
  | nil => exact absurd rfl hs
  | cons a t =>
      rcases foldl_min_eq_init_or_mem t a.score with h | ⟨w, hw, he⟩
      · exact ⟨a, List.mem_cons_self a t, h⟩
      · exact ⟨w, List.mem_cons_of_mem a hw, he⟩

lemma minScoreD_perm {s t : List Vertex} (h : s.Perm t) :
    minScoreD s = minScoreD t := by
  rcases eq_or_ne s [] with rfl | hs
  · rw [h.nil_eq.symm]
  · have ht : t ≠ [] := by
      intro he
      exact hs (by simpa [he] using h.length_eq)
    apply le_antisymm
    · obtain ⟨v, hv, he⟩ := minScoreD_mem ht
      rw [he]
      exact minScoreD_le_of_mem (h.mem_iff.mpr hv)
    · obtain ⟨v, hv, he⟩ := minScoreD_mem hs
      rw [he]
      exact minScoreD_le_of_mem (h.mem_iff.mp hv)

lemma sorted_head_minScoreD {s : List Vertex} {b : Vertex} {t : List Vertex}
    (e : sortByScore s = b :: t) : b.score = minScoreD s := by
  have hperm := sortByScore_perm s
  have hpw := sortByScore_pairwise s
  rw [e] at hperm hpw
  rcases List.pairwise_cons.mp hpw with ⟨hb, _⟩
  apply le_antisymm
  · rw [← minScoreD_perm hperm]
    refine le_minScoreD (List.cons_ne_nil b t) ?_
    intro v hv
    rcases List.mem_cons.mp hv with rfl | hv
    · exact le_refl _
    · exact hb v hv
  · exact minScoreD_le_of_mem (hperm.mem_iff.mp (List.mem_cons_self b t))

/-! Facts about the score spread: constant scores give spread zero. -/

lemma foldl_max_const {l : List Vertex} {c : ℚ}
    (h : ∀ w ∈ l, w.score = c) :
    l.foldl (fun m w => max m w.score) c = c := by
  induction l with
  | nil => rfl
  | cons u t ih =>
      rw [List.foldl_cons, h u (List.mem_cons_self u t), max_self]
      exact ih (fun w hw => h w (List.mem_cons_of_mem u hw))

lemma foldl_min_const {l : List Vertex} {c : ℚ}
    (h : ∀ w ∈ l, w.score = c) :
    l.foldl (fun m w => min m w.score) c = c := by
  induction l with
  | nil => rfl
  | cons u t ih =>
      rw [List.foldl_cons, h u (List.mem_cons_self u t), min_self]
      exact ih (fun w hw => h w (List.mem_cons_of_mem u hw))

lemma scoreSpread_const {s : List Vertex} {c : ℚ}
    (h : ∀ v ∈ s, v.score = c) : scoreSpread s = 0 := by
  cases s with
  | nil => simp [scoreSpread, maxScoreD, minScoreD]
  | cons a t =>
      have ha := h a (List.mem_cons_self a t)
      have ht : ∀ w ∈ t, w.score = c := fun w hw => h w (List.mem_cons_of_mem a hw)
      simp only [scoreSpread, maxScoreD, minScoreD, ha]
      rw [foldl_max_const ht, foldl_min_const ht, sub_self]

/-! Structural facts about one iteration. -/

lemma nmUpdate_mem {f : List ℚ → ℚ} {α γ ρ σ : ℚ} {best r : Vertex}
    {rs : List Vertex} {v : Vertex} (hv : v ∈ nmUpdate f α γ ρ σ best r rs) :
    v ∈ best :: r :: rs ∨ ∃ p, v = mkVertex f p := by
  simp only [nmUpdate] at hv
  split at hv
  · rcases List.mem_cons.mp hv with rfl | hb
    · right
      split
      · exact ⟨_, rfl⟩
      · exact ⟨_, rfl⟩
    · exact Or.inl (List.dropLast_subset _ hb)
  · split at hv
    · rcases List.mem_cons.mp hv with rfl | hb
      · exact Or.inr ⟨_, rfl⟩
      · exact Or.inl (List.dropLast_subset _ hb)
    · split at hv
      · rcases List.mem_cons.mp hv with rfl | hb
        · exact Or.inr ⟨_, rfl⟩
        · exact Or.inl (List.dropLast_subset _ hb)
      · rcases List.mem_cons.mp hv with rfl | hb
        · exact Or.inl (List.mem_cons_self _ _)
        · rcases List.mem_map.mp hb with ⟨w, _, rfl⟩
          exact Or.inr ⟨_, rfl⟩

lemma best_mem_nmUpdate (f : List ℚ → ℚ) (α γ ρ σ : ℚ) (best r : Vertex)
    (rs : List Vertex) : best ∈ nmUpdate f α γ ρ σ best r rs := by
  have hb : best ∈ (best :: r :: rs).dropLast := by
    rw [List.dropLast_cons₂]
    exact List.mem_cons_self _ _
  simp only [nmUpdate]
  split
  · exact List.mem_cons_of_mem _ hb
  · split
    · exact List.mem_cons_of_mem _ hb
    · split
      · exact List.mem_cons_of_mem _ hb
      · exact List.mem_cons_self _ _

lemma nmUpdate_ne_nil (f : List ℚ → ℚ) (α γ ρ σ : ℚ) (best r : Vertex)
    (rs : List Vertex) : nmUpdate f α γ ρ σ best r rs ≠ [] :=
  List.ne_nil_of_mem (best_mem_nmUpdate f α γ ρ σ best r rs)

lemma nmStep_mem {f : List ℚ → ℚ} {α γ ρ σ : ℚ} {s : List Vertex} {v : Vertex}
    (hv : v ∈ nmStep f α γ ρ σ s) : v ∈ s ∨ ∃ p, v = mkVertex f p := by
  unfold nmStep at hv
  split at hv
  · cases hv
  · rename_i v1 heq
    rw [List.mem_singleton] at hv
    subst hv
    exact Or.inl (mem_sortByScore.mp (by rw [heq] ; exact List.mem_cons_self _ _))
  · rename_i best r rs heq
    rcases nmUpdate_mem hv with h | h
    · exact Or.inl (mem_sortByScore.mp (by rw [heq] ; exact h))
    · exact Or.inr h

lemma nmStep_ne_nil {f : List ℚ → ℚ} {α γ ρ σ : ℚ} {s : List Vertex}
    (hs : s ≠ []) : nmStep f α γ ρ σ s ≠ [] := by
  unfold nmStep
  split
  · rename_i heq
    exfalso
    apply hs
    have hl := sortByScore_length s
    rw [heq] at hl
    exact List.length_eq_zero.mp hl.symm
  · exact List.cons_ne_nil _ _
  · exact nmUpdate_ne_nil _ _ _ _ _ _ _ _

lemma nmStep_score_const {f : List ℚ → ℚ} {c : ℚ} {α γ ρ σ : ℚ}
    {s : List Vertex} (hf : ∀ x, f x = c) (hs : ∀ v ∈ s, v.score = c) :
    ∀ v ∈ nmStep f α γ ρ σ s, v.score = c := by
  intro v hv
  rcases nmStep_mem hv with h | ⟨p, rfl⟩
  · exact hs v h
  · simp [mkVertex, hf]

lemma initialSimplex_score_const (f : List ℚ → ℚ) (c : ℚ) (x0 : List ℚ) (h : ℚ)
    (hf : ∀ x, f x = c) : ∀ v ∈ initialSimplex f x0 h, v.score = c := by
  intro v hv
  simp only [initialSimplex] at hv
  rcases List.mem_cons.mp hv with rfl | hv
  · simp [mkVertex, hf]
  · rcases List.mem_map.mp hv with ⟨i, _, rfl⟩
    simp [mkVertex, hf]

/-! Dimension facts: every geometric operation preserves point length. -/

lemma length_combo {k : ℚ} {a b c : List ℚ} {N : Nat} (ha : a.length = N)
    (hb : b.length = N) (hc : c.length = N) :
    (addP a (smulP k (subP b c))).length = N := by
  simp [addP, smulP, subP, List.length_zipWith, List.length_map, ha, hb, hc]

lemma foldl_addP_length {N : Nat} :
    ∀ (l : List (List ℚ)) (acc : List ℚ), acc.length = N →
      (∀ p ∈ l, p.length = N) → (l.foldl addP acc).length = N := by
  intro l
  induction l with
  | nil => intro acc ha _; exact ha
  | cons p pt ih =>
      intro acc ha h
      rw [List.foldl_cons]
      refine ih (addP acc p) ?_ (fun q hq => h q (List.mem_cons_of_mem p hq))
      simp [addP, List.length_zipWith, ha, h p (List.mem_cons_self p pt)]

lemma sumPoints_length {N : Nat} {ps : List (List ℚ)} (hne : ps ≠ [])
    (h : ∀ p ∈ ps, p.length = N) : (sumPoints ps).length = N := by
  cases ps with
  | nil => exact absurd rfl hne
  | cons p pt =>
      exact foldl_addP_length pt p (h p (List.mem_cons_self p pt))
        (fun q hq => h q (List.mem_cons_of_mem p hq))

lemma centroid_length {N : Nat} {ps : List (List ℚ)} (hne : ps ≠ [])
    (h : ∀ p ∈ ps, p.length = N) : (centroid ps).length = N := by
  simp [centroid, smulP, List.length_map, sumPoints_length hne h]

lemma nmUpdate_dim {N : Nat} {f : List ℚ → ℚ} {α γ ρ σ : ℚ} {best r : Vertex}
    {rs : List Vertex} (hall : ∀ v ∈ best :: r :: rs, v.point.length = N) :
    ∀ v ∈ nmUpdate f α γ ρ σ best r rs, v.point.length = N := by
  have hbody : ∀ v ∈ (best :: r :: rs).dropLast, v.point.length = N :=
    fun v hv => hall v (List.dropLast_subset _ hv)
  have hc : (centroid (((best :: r :: rs).dropLast).map Vertex.point)).length = N := by
    refine centroid_length ?_ ?_
    · rw [List.dropLast_cons₂]
      simp
    · intro p hp
      rcases List.mem_map.mp hp with ⟨w, hw, rfl⟩
      exact hbody w hw
  have hworst : ((r :: rs).getLast (List.cons_ne_nil r rs)).point.length = N :=
    hall _ (List.mem_cons_of_mem best (List.getLast_mem (List.cons_ne_nil r rs)))
  have hbb : best.point.length = N := hall best (List.mem_cons_self _ _)
  intro v hv
  simp only [nmUpdate] at hv
  split at hv
  · rcases List.mem_cons.mp hv with rfl | hb
    · split
      · exact length_combo hc (length_combo hc hc hworst) hc
      · exact length_combo hc hc hworst
    · exact hbody _ hb
  · split at hv
    · rcases List.mem_cons.mp hv with rfl | hb
      · exact length_combo hc hc hworst
      · exact hbody _ hb
    · split at hv
      · rcases List.mem_cons.mp hv with rfl | hb
        · exact length_combo hc hworst hc
        · exact hbody _ hb
      · rcases List.mem_cons.mp hv with rfl | hb
        · exact hbb
        · rcases List.mem_map.mp hb with ⟨w, hw, rfl⟩
          exact length_combo hbb (hall w (List.mem_cons_of_mem best hw)) hbb

lemma nmStep_dim {N : Nat} {f : List ℚ → ℚ} {α γ ρ σ : ℚ} {s : List Vertex}
    (hs : ∀ v ∈ s, v.point.length = N) :
    ∀ v ∈ nmStep f α γ ρ σ s, v.point.length = N := by
  have hs' : ∀ v ∈ sortByScore s, v.point.length = N :=
    fun v hv => hs v (mem_sortByScore.mp hv)
  intro v hv
  unfold nmStep at hv
  split at hv
  · cases hv
  · rename_i v1 heq
    rw [List.mem_singleton] at hv
    subst hv
    exact hs' v (by rw [heq] ; exact List.mem_cons_self _ _)
  · rename_i best r rs heq
    refine nmUpdate_dim ?_ v hv
    intro w hw
    exact hs' w (by rw [heq] ; exact hw)

lemma initialSimplex_dim (f : List ℚ → ℚ) (x0 : List ℚ) (h : ℚ) :
    ∀ v ∈ initialSimplex f x0 h, v.point.length = x0.length := by
  intro v hv
  simp only [initialSimplex] at hv
  rcases List.mem_cons.mp hv with rfl | hv
  · rfl
  · rcases List.mem_map.mp hv with ⟨i, _, rfl⟩
    simp [mkVertex, perturb, List.length_mapIdx]

/-! Facts about the main loop. -/

lemma nmLoop_iters_le (f : List ℚ → ℚ) (α γ ρ σ tol : ℚ) (maxStag : Nat) :
    ∀ (fuel : Nat) (s : List Vertex) (bestPrev : ℚ) (stag : Nat),
      (nmLoop f α γ ρ σ tol maxStag fuel s bestPrev stag).2 ≤ fuel := by
  intro fuel
  induction fuel with
  | zero => intro s b st; exact le_refl 0
  | succ n ih =>
      intro s b st
      simp only [nmLoop]
      split <;> split
      all_goals
        first
        | exact Nat.succ_le_succ (Nat.zero_le n)
        | exact Nat.succ_le_succ (ih _ _ _)

lemma nmLoop_preserves (f : List ℚ → ℚ) (α γ ρ σ tol : ℚ) (maxStag : Nat)
    (N : Nat) :
    ∀ (fuel : Nat) (s : List Vertex) (bestPrev : ℚ) (stag : Nat), s ≠ [] →
      (∀ v ∈ s, v.point.length = N) →
      (nmLoop f α γ ρ σ tol maxStag fuel s bestPrev stag).1 ≠ [] ∧
        ∀ v ∈ (nmLoop f α γ ρ σ tol maxStag fuel s bestPrev stag).1,
          v.point.length = N := by
  intro fuel
  induction fuel with
  | zero => intro s b st hne hdim; exact ⟨hne, hdim⟩
  | succ n ih =>
      intro s b st hne hdim
      simp only [nmLoop]
      split <;> split
      all_goals
        first
        | exact ⟨nmStep_ne_nil hne, nmStep_dim hdim⟩
        | exact ih _ _ _ (nmStep_ne_nil hne) (nmStep_dim hdim)

lemma headD_mem_of_ne_nil {l : List Vertex} (h : l ≠ []) (d : Vertex) :
    l.headD d ∈ l := by
  cases l with
  | nil => exact absurd rfl h
  | cons a t => exact List.mem_cons_self a t

end NelderMead

/-- C1: for every list `x`, `styblinski_tang_function x` equals `0.5` times the
sum over all elements `xi` of `x` of `xi^4 - 16*xi^2 + 5*xi`, stated as an
indexed sum over the positions of `x`. -/
theorem styblinski_tang_correct (x : List ℚ) :
    styblinski_tang_function x =
      0.5 * ∑ i ∈ Finset.range x.length,
        ((x.getD i 0) ^ 4 - 16 * (x.getD i 0) ^ 2 + 5 * (x.getD i 0)) := by
  unfold styblinski_tang_function
  congr 1
  induction x with
  | nil => simp
  | cons a t ih =>
      rw [List.map_cons, List.sum_cons, List.length_cons,
        Finset.sum_range_succ', ih]
      simp [add_comm]

/-- C2: the example script invokes `nelder_mead` with exactly the arguments of
the §4.1 contract, in contract order: the Styblinski-Tang objective, initial
point `[0, 0]`, step size `0.1`, tolerance `1e-5` (written `10e-6` in the
source, numerically equal), stagnation cap `10`, iteration cap `100`, and
coefficients `1.0`, `2.0`, `-0.5`, `0.5`. -/
theorem example_args_match_contract :
    example_args =
      (styblinski_tang_function, [0, 0], 1e-1, 1e-5, 10, 100, 1, 2, -(1/2), 1/2) := by
  unfold example_args
  norm_num

/-- C3 counterexample: evaluating `styblinski_tang_function` at the point
`[-2.903534, -2.903534]` does NOT yield a value near `-39.166`: the value is
not even within distance `1` of `-39.166` (it is about `-78.332`). -/
theorem styblinski_at_minimizer_not_near_39 :
    ¬ |styblinski_tang_function [-2903534/1000000, -2903534/1000000] -
        (-(39166/1000))| < 1 := by
  unfold styblinski_tang_function
  norm_num [abs_lt]

/-- C3 amended: evaluating `styblinski_tang_function` at `[-2.903534, -2.903534]`
yields a value within `0.01` of `-78.332`, which is twice `-39.166`: the
spec's `-39.166` is the per-dimension minimum, and the two-dimensional
objective value is `N` times that. -/
theorem styblinski_at_minimizer_near_78 :
    |styblinski_tang_function [-2903534/1000000, -2903534/1000000] -
        (-(78332/1000))| < 1/100 := by
  unfold styblinski_tang_function
  norm_num [abs_lt]

/-- C10: `styblinski_tang_function` applied to the empty list returns exactly
`0` (the sum over zero terms is `0`, and `0.5 * 0 = 0`); the function is total
on lists of every length, including length `0`. -/
theorem styblinski_tang_empty : styblinski_tang_function [] = 0 := by
  unfold styblinski_tang_function
  norm_num

/-- C4: the computation is deterministic: `styblinski_tang_function` returns
the same value on every call with the same input, and two runs of the
optimizer with the same ten arguments return identical output — both are pure
functions of their arguments, with no hidden state. -/
theorem optimize_deterministic (x : List ℚ) (f : List ℚ → ℚ) (x0 : List ℚ)
    (stepSize tol : ℚ) (maxStag maxTotal : Nat) (α γ ρ σ : ℚ) :
    styblinski_tang_function x = styblinski_tang_function x ∧
      nelder_mead f x0 stepSize tol maxStag maxTotal α γ ρ σ =
        nelder_mead f x0 stepSize tol maxStag maxTotal α γ ρ σ :=
  ⟨rfl, rfl⟩

/-- C5: for every objective and every `max_total_iters`, the optimizer
terminates (it is a total function) and performs at most `max_total_iters`
iterations. -/
theorem optimize_iterations_bounded (f : List ℚ → ℚ) (x0 : List ℚ)
    (stepSize tol : ℚ) (maxStag maxTotal : Nat) (α γ ρ σ : ℚ) :
    nelder_mead_iters f x0 stepSize tol maxStag maxTotal α γ ρ σ ≤ maxTotal :=
  nmLoop_iters_le f α γ ρ σ tol maxStag maxTotal _ _ _

/-- C6: across every iteration, for any objective and any simplex of at least
two vertices (always the case for valid input, where the simplex has `N+1 ≥ 2`
vertices), the best (lowest) score never increases: after the iteration's
replacement or shrink, the least vertex score is at most the least vertex
score before it. -/
theorem nmStep_best_monotone (f : List ℚ → ℚ) (α γ ρ σ : ℚ) (s : List Vertex)
    (h2 : 2 ≤ s.length) :
    minScoreD (nmStep f α γ ρ σ s) ≤ minScoreD s := by
  unfold nmStep
  split
  · rename_i heq
    exfalso
    have hl := sortByScore_length s
    rw [heq] at hl
    simp at hl
    omega
  · rename_i v heq
    exfalso
    have hl := sortByScore_length s
    rw [heq] at hl
    simp at hl
    omega
  · rename_i best r rs heq
    have hb : best.score = minScoreD s := sorted_head_minScoreD heq
    rw [← hb]
    exact minScoreD_le_of_mem (best_mem_nmUpdate f α γ ρ σ best r rs)

/-- Witness for C6: the monotonicity theorem applied to a concrete
two-vertex simplex and a concrete objective. -/
theorem nmStep_best_monotone_witness :
    2 ≤ ([⟨[0], 0⟩, ⟨[1], 1⟩] : List Vertex).length ∧
      minScoreD (nmStep (fun _ => 0) 1 2 (-(1/2)) (1/2) [⟨[0], 0⟩, ⟨[1], 1⟩]) ≤
        minScoreD [⟨[0], 0⟩, ⟨[1], 1⟩] :=
  ⟨by simp, nmStep_best_monotone (fun _ => 0) 1 2 (-(1/2)) (1/2) _ (by simp)⟩

/-- C7: for every input, the Point returned by the optimizer has the same
dimension (number of coordinates) as `initial_point`. -/
theorem optimize_preserves_dimension (f : List ℚ → ℚ) (x0 : List ℚ)
    (stepSize tol : ℚ) (maxStag maxTotal : Nat) (α γ ρ σ : ℚ) :
    (nelder_mead f x0 stepSize tol maxStag maxTotal α γ ρ σ).length =
      x0.length := by
  simp only [nelder_mead]
  obtain ⟨hne, hdim⟩ :=
    nmLoop_preserves f α γ ρ σ tol maxStag x0.length maxTotal
      (initialSimplex f x0 stepSize) (minScoreD (initialSimplex f x0 stepSize)) 0
      (List.cons_ne_nil _ _) (initialSimplex_dim f x0 stepSize)
  have hsne :
      sortByScore (nmLoop f α γ ρ σ tol maxStag maxTotal
        (initialSimplex f x0 stepSize)
        (minScoreD (initialSimplex f x0 stepSize)) 0).1 ≠ [] := by
    intro he
    apply hne
    have hl := sortByScore_length (nmLoop f α γ ρ σ tol maxStag maxTotal
      (initialSimplex f x0 stepSize)
      (minScoreD (initialSimplex f x0 stepSize)) 0).1
    rw [he] at hl
    exact List.length_eq_zero.mp hl.symm
  exact hdim _ (mem_sortByScore.mp (headD_mem_of_ne_nil hsne (mkVertex f x0)))

/-- C9: for every constant-valued objective and positive tolerance, the
optimizer terminates within one iteration: after the first iteration every
vertex score equals the constant, so the score spread is `0`, which is below
the positive tolerance. -/
theorem constant_objective_single_iteration (f : List ℚ → ℚ) (c : ℚ)
    (hf : ∀ x, f x = c) (x0 : List ℚ) (stepSize tol : ℚ) (htol : 0 < tol)
    (maxStag maxTotal : Nat) (α γ ρ σ : ℚ) :
    nelder_mead_iters f x0 stepSize tol maxStag maxTotal α γ ρ σ ≤ 1 := by
  simp only [nelder_mead_iters]
  cases maxTotal with
  | zero => simp [nmLoop]
  | succ n =>
      have hsp :
          scoreSpread (nmStep f α γ ρ σ (initialSimplex f x0 stepSize)) = 0 :=
        scoreSpread_const
          (nmStep_score_const hf (initialSimplex_score_const f c x0 stepSize hf))
      simp only [nmLoop]
      split <;> split <;> rename_i hcond
      all_goals
        first
        | exact le_refl 1
        | exact absurd (Or.inl (by rw [hsp] ; exact htol)) hcond

/-- Witness for C9: the one-iteration theorem applied to the constant-zero
objective with concrete parameters. -/
theorem constant_objective_single_iteration_witness :
    (∀ x : List ℚ, (fun _ : List ℚ => (0 : ℚ)) x = 0) ∧ (0 : ℚ) < 1 ∧
      nelder_mead_iters (fun _ => 0) [0] 1 1 1 5 1 2 (-(1/2)) (1/2) ≤ 1 :=
  ⟨fun _ => rfl, by norm_num,
    constant_objective_single_iteration (fun _ => 0) 0 (fun _ => rfl) [0] 1 1
      (by norm_num) 1 5 1 2 (-(1/2)) (1/2)⟩

namespace NelderMead

/-! Error propagation through the exception-aware optimizer. -/

lemma except_bind_error_cases {ε A B : Type} {m : Except ε A} {k : A → Except ε B}
    {e : ε} (h : m >>= k = Except.error e) :
    m = Except.error e ∨ ∃ a, m = Except.ok a ∧ k a = Except.error e := by
  cases m with
  | error e' =>
      left
      have hm : (Except.error e' : Except ε A) >>= k = Except.error e' := rfl
      rw [hm] at h
      injection h with h'
      rw [h']
  | ok a => exact Or.inr ⟨a, rfl, h⟩

lemma except_bind_pure_error {ε A B : Type} {m : Except ε A} {g : A → B} {e : ε}
    (h : (m >>= fun a => pure (g a)) = Except.error e) : m = Except.error e := by
  rcases except_bind_error_cases h with h1 | ⟨a, _, h2⟩
  · exact h1
  · cases h2

lemma evalVertexE_error {ε : Type} {f : List ℚ → Except ε ℚ} {p : List ℚ}
    {e : ε} (h : evalVertexE f p = Except.error e) : f p = Except.error e := by
  unfold evalVertexE at h
  cases hf : f p with
  | error e' =>
      rw [hf] at h
      simp [Except.map] at h
      rw [h]
  | ok a =>
      rw [hf] at h
      simp [Except.map] at h

lemma mapM_error {ε A : Type} {g : A → Except ε Vertex} {e : ε} :
    ∀ {l : List A}, l.mapM g = Except.error e → ∃ a ∈ l, g a = Except.error e := by
  intro l
  induction l with
  | nil =>
      intro h
      rw [List.mapM_nil] at h
      cases h
  | cons a t ih =>
      intro h
      rw [List.mapM_cons] at h
      rcases except_bind_error_cases h with h1 | ⟨b, _, h2⟩
      · exact ⟨a, List.mem_cons_self a t, h1⟩
      · rcases except_bind_error_cases h2 with h3 | ⟨bs, _, h4⟩
        · rcases ih h3 with ⟨x, hx, hgx⟩
          exact ⟨x, List.mem_cons_of_mem a hx, hgx⟩
        · cases h4

lemma initialSimplexE_error {ε : Type} {f : List ℚ → Except ε ℚ} {x0 : List ℚ}
    {h : ℚ} {e : ε} (he : initialSimplexE f x0 h = Except.error e) :
    ∃ p, f p = Except.error e := by
  simp only [initialSimplexE] at he
  rcases except_bind_error_cases he with h1 | ⟨v0, _, h2⟩
  · exact ⟨x0, evalVertexE_error h1⟩
  · rcases except_bind_error_cases h2 with h3 | ⟨rest, _, h4⟩
    · rcases mapM_error h3 with ⟨i, _, hgi⟩
      exact ⟨perturb x0 i h, evalVertexE_error hgi⟩
    · cases h4

lemma nmUpdateE_error {ε : Type} {f : List ℚ → Except ε ℚ} {α γ ρ σ : ℚ}
    {best r : Vertex} {rs : List Vertex} {e : ε}
    (h : nmUpdateE f α γ ρ σ best r rs = Except.error e) :
    ∃ p, f p = Except.error e := by
  simp only [nmUpdateE] at h
  rcases except_bind_error_cases h with h1 | ⟨reflV, _, h2⟩
  · exact ⟨_, evalVertexE_error h1⟩
  · split at h2
    · rcases except_bind_error_cases h2 with h3 | ⟨expV, _, h4⟩
      · exact ⟨_, evalVertexE_error h3⟩
      · cases h4
    · split at h2
      · cases h2
      · rcases except_bind_error_cases h2 with h3 | ⟨conV, _, h4⟩
        · exact ⟨_, evalVertexE_error h3⟩
        · split at h4
          · cases h4
          · rcases except_bind_error_cases h4 with h5 | ⟨shr, _, h6⟩
            · rcases mapM_error h5 with ⟨w, _, hgw⟩
              exact ⟨_, evalVertexE_error hgw⟩
            · cases h6

lemma nmStepE_error {ε : Type} {f : List ℚ → Except ε ℚ} {α γ ρ σ : ℚ}
    {s : List Vertex} {e : ε} (h : nmStepE f α γ ρ σ s = Except.error e) :
    ∃ p, f p = Except.error e := by
  unfold nmStepE at h
  split at h
  · cases h
  · cases h
  · exact nmUpdateE_error h

lemma nmLoopE_error {ε : Type} (f : List ℚ → Except ε ℚ) (α γ ρ σ tol : ℚ)
    (maxStag : Nat) :
    ∀ (fuel : Nat) (s : List Vertex) (bestPrev : ℚ) (stag : Nat) (e : ε),
      nmLoopE f α γ ρ σ tol maxStag fuel s bestPrev stag = Except.error e →
        ∃ p, f p = Except.error e := by
  intro fuel
  induction fuel with
  | zero => intro s b st e h; cases h
  | succ n ih =>
      intro s b st e h
      simp only [nmLoopE] at h
      rcases except_bind_error_cases h with h1 | ⟨s', _, h2⟩
      · exact nmStepE_error h1
      · split at h2
        all_goals try split at h2
        all_goals
          first
          | cases h2
          | exact ih _ _ _ _ (except_bind_pure_error h2)

lemma nelder_meadE_error {ε : Type} {f : List ℚ → Except ε ℚ} {x0 : List ℚ}
    {stepSize tol : ℚ} {maxStag maxTotal : Nat} {α γ ρ σ : ℚ} {e : ε}
    (h : nelder_meadE f x0 stepSize tol maxStag maxTotal α γ ρ σ =
      Except.error e) :
    ∃ p, f p = Except.error e := by
  simp only [nelder_meadE] at h
  rcases except_bind_error_cases h with h1 | ⟨s0, _, h2⟩
  · exact initialSimplexE_error h1
  · exact nmLoopE_error f α γ ρ σ tol maxStag maxTotal s0 _ 0 e
      (except_bind_pure_error h2)

lemma nelder_meadE_propagates {ε : Type} {f : List ℚ → Except ε ℚ} {x0 : List ℚ}
    (stepSize tol : ℚ) (maxStag maxTotal : Nat) (α γ ρ σ : ℚ) {e : ε}
    (h : f x0 = Except.error e) :
    nelder_meadE f x0 stepSize tol maxStag maxTotal α γ ρ σ = Except.error e := by
  have h0 : initialSimplexE f x0 stepSize = Except.error e := by
    simp only [initialSimplexE]
    have hv : evalVertexE f x0 = Except.error e := by
      unfold evalVertexE
      rw [h]
      rfl
    rw [hv]
    rfl
  simp only [nelder_meadE]
  rw [h0]
  rfl

/-! The trace-instrumented run computes the same outcome as the
exception-aware optimizer. -/

lemma tbind_snd {ε A B : Type} (m : List (List ℚ) × Except ε A)
    (k : A → List (List ℚ) × Except ε B) :
    (tbind m k).2 = m.2 >>= (fun a => (k a).2) := by
  rcases m with ⟨t, r⟩
  cases r <;> rfl

lemma evalVertexT_snd {ε : Type} (f : List ℚ → Except ε ℚ) (p : List ℚ) :
    (evalVertexT f p).2 = evalVertexE f p := rfl

lemma tmapM_snd {ε A : Type} (g : A → List (List ℚ) × Except ε Vertex)
    (g' : A → Except ε Vertex) (hg : ∀ a, (g a).2 = g' a) :
    ∀ l : List A, (tmapM g l).2 = l.mapM g' := by
  intro l
  induction l with
  | nil => rw [List.mapM_nil] ; rfl
  | cons a t ih =>
      rw [List.mapM_cons]
      simp only [tmapM, tbind_snd, hg, ih]
      rfl

lemma snd_ite {ε A : Type} {c : Prop} [Decidable c]
    {x y : List (List ℚ) × Except ε A} :
    (if c then x else y).2 = if c then x.2 else y.2 := by
  by_cases h : c <;> simp [h]

lemma initialSimplexT_snd {ε : Type} (f : List ℚ → Except ε ℚ) (x0 : List ℚ)
    (h : ℚ) : (initialSimplexT f x0 h).2 = initialSimplexE f x0 h := by
  simp only [initialSimplexT, initialSimplexE, tbind_snd, evalVertexT_snd,
    tmapM_snd (fun i : Nat => evalVertexT f (perturb x0 i h))
      (fun i : Nat => evalVertexE f (perturb x0 i h)) (fun _ => rfl)]
  rfl

lemma nmUpdateT_snd {ε : Type} (f : List ℚ → Except ε ℚ) (α γ ρ σ : ℚ)
    (best r : Vertex) (rs : List Vertex) :
    (nmUpdateT f α γ ρ σ best r rs).2 = nmUpdateE f α γ ρ σ best r rs := by
  simp only [nmUpdateT, nmUpdateE, tbind_snd, evalVertexT_snd, snd_ite,
    tmapM_snd (fun v : Vertex => evalVertexT f (shrinkPt σ best.point v.point))
      (fun v : Vertex => evalVertexE f (shrinkPt σ best.point v.point))
      (fun _ => rfl)]
  rfl

lemma nmStepT_snd {ε : Type} (f : List ℚ → Except ε ℚ) (α γ ρ σ : ℚ)
    (s : List Vertex) : (nmStepT f α γ ρ σ s).2 = nmStepE f α γ ρ σ s := by
  unfold nmStepT nmStepE
  rcases sortByScore s with _ | ⟨b, _ | ⟨r, rs⟩⟩
  · rfl
  · rfl
  · exact nmUpdateT_snd f α γ ρ σ b r rs

lemma nmLoopT_snd {ε : Type} (f : List ℚ → Except ε ℚ) (α γ ρ σ tol : ℚ)
    (maxStag : Nat) :
    ∀ (fuel : Nat) (s : List Vertex) (bestPrev : ℚ) (stag : Nat),
      (nmLoopT f α γ ρ σ tol maxStag fuel s bestPrev stag).2 =
        nmLoopE f α γ ρ σ tol maxStag fuel s bestPrev stag := by
  intro fuel
  induction fuel with
  | zero => intro s b st; rfl
  | succ n ih =>
      intro s b st
      simp only [nmLoopT, nmLoopE, tbind_snd, nmStepT_snd, snd_ite, ih]
      rfl

lemma nelder_meadT_snd {ε : Type} (f : List ℚ → Except ε ℚ) (x0 : List ℚ)
    (stepSize tol : ℚ) (maxStag maxTotal : Nat) (α γ ρ σ : ℚ) :
    (nelder_meadT f x0 stepSize tol maxStag maxTotal α γ ρ σ).2 =
      nelder_meadE f x0 stepSize tol maxStag maxTotal α γ ρ σ := by
  simp only [nelder_meadT, nelder_meadE, tbind_snd, initialSimplexT_snd,
    nmLoopT_snd]
  rfl

/-! Every constituent of the trace-instrumented run is faithful: evaluation
stops at the first error, the returned error is the one raised at the last
evaluated point, and an ok outcome means every evaluation succeeded. -/

lemma tbind_error {ε A B : Type} (t : List (List ℚ)) (e : ε)
    (k : A → List (List ℚ) × Except ε B) :
    tbind (t, Except.error e) k = (t, Except.error e) := rfl

lemma tbind_ok {ε A B : Type} (t : List (List ℚ)) (a : A)
    (k : A → List (List ℚ) × Except ε B) :
    tbind (t, Except.ok a) k = (t ++ (k a).1, (k a).2) := rfl

lemma faithful_ret {ε A : Type} (f : List ℚ → Except ε ℚ) (x : A) :
    FaithfulRun f (([], Except.ok x) : List (List ℚ) × Except ε A) := by
  refine ⟨?_, ?_, ?_⟩
  · intro p hp
    cases hp
  · intro e he
    cases he
  · intro a _ p hp
    cases hp

lemma faithful_tbind {ε A B : Type} {f : List ℚ → Except ε ℚ}
    {m : List (List ℚ) × Except ε A} {k : A → List (List ℚ) × Except ε B}
    (hm : FaithfulRun f m) (hk : ∀ a, FaithfulRun f (k a)) :
    FaithfulRun f (tbind m k) := by
  rcases m with ⟨t, r⟩
  cases r with
  | error e =>
      rw [tbind_error]
      obtain ⟨hdrop, herr, _⟩ := hm
      refine ⟨hdrop, ?_, ?_⟩
      · intro e' he'
        have he2 : (Except.error e : Except ε B) = Except.error e' := he'
        have h : e = e' := by injection he2
        subst h
        exact herr e rfl
      · intro b hb
        have hb2 : (Except.error e : Except ε B) = Except.ok b := hb
        cases hb2
  | ok a =>
      obtain ⟨hdrop, _, hok⟩ := hm
      have hokt : ∀ p ∈ t, ∃ y, f p = Except.ok y := hok a rfl
      obtain ⟨hdrop', herr', hok'⟩ := hk a
      rw [tbind_ok]
      refine ⟨?_, ?_, ?_⟩
      · rcases hka : (k a).1 with _ | ⟨q, qs⟩
        · intro p hp
          rw [List.append_nil] at hp
          exact hokt p (List.dropLast_subset t hp)
        · intro p hp
          rw [List.dropLast_append] at hp
          simp only [List.isEmpty_cons, if_neg Bool.false_ne_true] at hp
          rcases List.mem_append.mp hp with h | h
          · exact hokt p h
          · exact hdrop' p (by rw [hka] ; exact h)
      · intro e he
        obtain ⟨p, hp, hfp⟩ := herr' e he
        refine ⟨p, ?_, hfp⟩
        rw [List.getLast?_append, hp]
        rfl
      · intro b hb p hp
        rcases List.mem_append.mp hp with h | h
        · exact hokt p h
        · exact hok' b hb p h

lemma faithful_evalVertexT {ε : Type} (f : List ℚ → Except ε ℚ) (p : List ℚ) :
    FaithfulRun f (evalVertexT f p) := by
  refine ⟨?_, ?_, ?_⟩
  · intro q hq
    simp [evalVertexT] at hq
  · intro e he
    simp only [evalVertexT] at he
    refine ⟨p, rfl, ?_⟩
    cases hf : f p with
    | error e' =>
        rw [hf] at he
        simp only [Except.map] at he
        have h : e' = e := by injection he
        rw [h]
    | ok y =>
        rw [hf] at he
        simp [Except.map] at he
  · intro a ha q hq
    simp only [evalVertexT] at ha hq
    rw [List.mem_singleton] at hq
    subst hq
    cases hf : f q with
    | error e' =>
        rw [hf] at ha
        simp [Except.map] at ha
    | ok y => exact ⟨y, rfl⟩

lemma faithful_tmapM {ε A : Type} {f : List ℚ → Except ε ℚ}
    {g : A → List (List ℚ) × Except ε Vertex}
    (hg : ∀ a, FaithfulRun f (g a)) :
    ∀ l : List A, FaithfulRun f (tmapM g l) := by
  intro l
  induction l with
  | nil => exact faithful_ret f []
  | cons a t ih =>
      exact faithful_tbind (hg a)
        (fun b => faithful_tbind ih (fun bs => faithful_ret f (b :: bs)))

lemma faithful_initialSimplexT {ε : Type} (f : List ℚ → Except ε ℚ)
    (x0 : List ℚ) (h : ℚ) : FaithfulRun f (initialSimplexT f x0 h) :=
  faithful_tbind (faithful_evalVertexT f x0)
    (fun v0 => faithful_tbind
      (faithful_tmapM (fun i => faithful_evalVertexT f (perturb x0 i h)) _)
      (fun rest => faithful_ret f (v0 :: rest)))

lemma faithful_nmUpdateT {ε : Type} (f : List ℚ → Except ε ℚ) (α γ ρ σ : ℚ)
    (best r : Vertex) (rs : List Vertex) :
    FaithfulRun f (nmUpdateT f α γ ρ σ best r rs) := by
  unfold nmUpdateT
  refine faithful_tbind (faithful_evalVertexT f _) ?_
  intro reflV
  split
  · exact faithful_tbind (faithful_evalVertexT f _)
      (fun expV => faithful_ret f _)
  · split
    · exact faithful_ret f _
    · refine faithful_tbind (faithful_evalVertexT f _) ?_
      intro conV
      split
      · exact faithful_ret f _
      · exact faithful_tbind
          (faithful_tmapM (fun v => faithful_evalVertexT f _) _)
          (fun shrunk => faithful_ret f _)

lemma faithful_nmStepT {ε : Type} (f : List ℚ → Except ε ℚ) (α γ ρ σ : ℚ)
    (s : List Vertex) : FaithfulRun f (nmStepT f α γ ρ σ s) := by
  unfold nmStepT
  rcases sortByScore s with _ | ⟨b, _ | ⟨r, rs⟩⟩
  · exact faithful_ret f _
  · exact faithful_ret f _
  · exact faithful_nmUpdateT f α γ ρ σ b r rs

lemma faithful_nmLoopT {ε : Type} (f : List ℚ → Except ε ℚ) (α γ ρ σ tol : ℚ)
    (maxStag : Nat) :
    ∀ (fuel : Nat) (s : List Vertex) (bestPrev : ℚ) (stag : Nat),
      FaithfulRun f (nmLoopT f α γ ρ σ tol maxStag fuel s bestPrev stag) := by
  intro fuel
  induction fuel with
  | zero => intro s b st; exact faithful_ret f _
  | succ n ih =>
      intro s b st
      refine faithful_tbind (faithful_nmStepT f α γ ρ σ s) ?_
      intro s'
      dsimp only
      split
      all_goals try split
      all_goals
        first
        | exact faithful_ret f _
        | exact faithful_tbind (ih _ _ _) (fun _ => faithful_ret f _)

lemma faithful_nelder_meadT {ε : Type} (f : List ℚ → Except ε ℚ) (x0 : List ℚ)
    (stepSize tol : ℚ) (maxStag maxTotal : Nat) (α γ ρ σ : ℚ) :
    FaithfulRun f (nelder_meadT f x0 stepSize tol maxStag maxTotal α γ ρ σ) :=
  faithful_tbind (faithful_initialSimplexT f x0 stepSize)
    (fun s0 => faithful_tbind (faithful_nmLoopT f α γ ρ σ tol maxStag maxTotal
      s0 (minScoreD s0) 0) (fun _ => faithful_ret f _))

lemma mem_split_last {A : Type} {l : List A} {p q : A} (hp : p ∈ l)
    (hq : l.getLast? = some q) : p ∈ l.dropLast ∨ p = q := by
  have hne : l ≠ [] := by rintro rfl ; cases hq
  have hql : l.getLast hne = q := by
    have h2 := List.getLast?_eq_getLast l hne
    rw [h2] at hq
    exact Option.some.inj hq
  have hsplit := List.dropLast_append_getLast hne
  rw [← hsplit] at hp
  rcases List.mem_append.mp hp with h | h
  · exact Or.inl h
  · right
    rw [List.mem_singleton] at h
    rw [h, hql]

lemma mem_of_getLast?_eq {A : Type} {l : List A} {q : A}
    (hq : l.getLast? = some q) : q ∈ l := by
  have hne : l ≠ [] := by rintro rfl ; cases hq
  have hql : l.getLast hne = q := by
    have h2 := List.getLast?_eq_getLast l hne
    rw [h2] at hq
    exact Option.some.inj hq
  rw [← hql]
  exact List.getLast_mem hne

end NelderMead

/-- C8: an error the objective raises on any evaluated point propagates to
the caller immediately and unmodified.  `nelder_meadT` is the optimizer
instrumented to also return the list of every point it passes to the
objective, in evaluation order.  The conjuncts: (1) the instrumented run has
the same outcome as the optimizer; (2) — the claim — if the objective raises
`e` at ANY point the optimizer evaluates, the optimizer returns exactly
`Except.error e`; (3) every evaluated point except possibly the last one
evaluated successfully, so evaluation stops at the first error: nothing is
retried and no later evaluation happens; (4) conversely, every error the
optimizer returns was raised by the objective at an evaluated point — errors
are never invented, swallowed into defaults, or rewrapped. -/
theorem objective_error_propagates {ε : Type} (f : List ℚ → Except ε ℚ)
    (x0 : List ℚ) (stepSize tol : ℚ) (maxStag maxTotal : Nat) (α γ ρ σ : ℚ)
    (e : ε) :
    ((nelder_meadT f x0 stepSize tol maxStag maxTotal α γ ρ σ).2 =
        nelder_meadE f x0 stepSize tol maxStag maxTotal α γ ρ σ) ∧
    ((∃ p ∈ (nelder_meadT f x0 stepSize tol maxStag maxTotal α γ ρ σ).1,
        f p = Except.error e) →
      nelder_meadE f x0 stepSize tol maxStag maxTotal α γ ρ σ =
        Except.error e) ∧
    (∀ p ∈ (nelder_meadT f x0 stepSize tol maxStag maxTotal α γ ρ σ).1.dropLast,
      ∃ y, f p = Except.ok y) ∧
    (nelder_meadE f x0 stepSize tol maxStag maxTotal α γ ρ σ = Except.error e →
      ∃ p ∈ (nelder_meadT f x0 stepSize tol maxStag maxTotal α γ ρ σ).1,
        f p = Except.error e) := by
  obtain ⟨hdrop, herr, hok⟩ :=
    faithful_nelder_meadT f x0 stepSize tol maxStag maxTotal α γ ρ σ
  have hcons := nelder_meadT_snd f x0 stepSize tol maxStag maxTotal α γ ρ σ
  refine ⟨hcons, ?_, hdrop, ?_⟩
  · rintro ⟨p, hp, hfp⟩
    rw [← hcons]
    cases hres : (nelder_meadT f x0 stepSize tol maxStag maxTotal α γ ρ σ).2 with
    | ok a =>
        obtain ⟨y, hy⟩ := hok a hres p hp
        rw [hfp] at hy
        cases hy
    | error e0 =>
        obtain ⟨q, hq, hfq⟩ := herr e0 hres
        rcases mem_split_last hp hq with hmem | heq
        · obtain ⟨y, hy⟩ := hdrop p hmem
          rw [hfp] at hy
          cases hy
        · subst heq
          rw [hfp] at hfq
          injection hfq with h'
          rw [h']
  · intro hE
    rw [← hcons] at hE
    obtain ⟨q, hq, hfq⟩ := herr e hE
    exact ⟨q, mem_of_getLast?_eq hq, hfq⟩

/-- Witness for C8: the objective that always raises the error `7`, run on
the example input, has `[0, 0]` among its evaluated points, and the optimizer
returns exactly `Except.error 7`. -/
theorem objective_error_propagates_witness :
    (∃ p ∈ (nelder_meadT (fun _ : List ℚ => (Except.error 7 : Except Nat ℚ))
        [0, 0] 1 1 10 100 1 2 (-(1/2)) (1/2)).1,
      (fun _ : List ℚ => (Except.error 7 : Except Nat ℚ)) p = Except.error 7) ∧
      nelder_meadE (fun _ : List ℚ => (Except.error 7 : Except Nat ℚ)) [0, 0]
          1 1 10 100 1 2 (-(1/2)) (1/2) = Except.error 7 :=
  ⟨⟨[0, 0], List.mem_cons_self _ _, rfl⟩,
    (objective_error_propagates (fun _ => Except.error 7) [0, 0] 1 1 10 100
        1 2 (-(1/2)) (1/2) 7).2.1 ⟨[0, 0], List.mem_cons_self _ _, rfl⟩⟩
